import Mathlib

/-!
Verification of the feature-column storage core (`columns.h`) of this
repository: the `IFeatureValuesHolder` hierarchy, `TArrayValuesHolder`,
`TCompressedValuesHolderImpl` and their accessors, over a shallow embedding.

External collaborators (`TArraySubsetIndexing` from `array_subset.h`,
`TCompressedArray` and `ParallelExtractValues` from `compression.h`,
`CB_ENSURE` from the exception helpers) are not part of the shown sources;
they are modelled from the spec, as marked in their doc comments.  The
classes of `columns.h` themselves are translated from the source.
-/

namespace NCB

/-- From the source: `enum class EFeatureValuesType`. -/
inductive EFeatureValuesType where
  | Float
  | QuantizedFloat
  | HashedCategorical
  | PerfectHashedCategorical
  deriving DecidableEq, Repr

/-- Modelled from the spec: `TArraySubsetIndexing<ui32>` (from
`catboost/libs/helpers/array_subset.h`, not under the shown sources): an
immutable mapping from the contiguous logical range `[0, Size)` to physical
positions within a stored array (`size()` and `positionOf`). -/
structure TArraySubsetIndexing where
  Size : Nat
  PositionOf : Nat → Nat

/-- Modelled from the spec: bit sequence of the packed buffer.  Each value
contributes `b` bits, least significant first. -/
def packBits (b : Nat) : List Nat → List Bool
  | [] => []
  | v :: vs => bitsOf b v ++ packBits b vs
where
  /-- The `b` low bits of `v`, least significant first. -/
  bitsOf : Nat → Nat → List Bool
  | 0, _ => []
  | n + 1, v => (v % 2 = 1) :: bitsOf n (v / 2)

/-- Value encoded by a bit list, least significant bit first. -/
def valOfBits : List Bool → Nat
  | [] => 0
  | bit :: rest => (if bit then 1 else 0) + 2 * valOfBits rest

/-- Modelled from the spec: `TCompressedArray` (from
`catboost/libs/helpers/compression.h`, not under the shown sources): a
compact bit-packed buffer with a declared bits-per-key, exposing a raw
pointer for reinterpretation and a decode operation.  `RawPtr` models the
identity of the heap buffer. -/
structure TCompressedArray where
  BitsPerKey : Nat
  Bits : List Bool
  RawPtr : Nat

/-- Modelled from the spec: building a compressed array by packing `vals`
at `b` bits per key into a fresh buffer identified by `ptr`. -/
def TCompressedArray.pack (b : Nat) (vals : List Nat) (ptr : Nat) : TCompressedArray :=
  { BitsPerKey := b, Bits := packBits b vals, RawPtr := ptr }

/-- Modelled from the spec: decoding the key at physical index `i` of the
packed buffer (reads its `BitsPerKey` bits). -/
def TCompressedArray.decodeAt (ca : TCompressedArray) (i : Nat) : Nat :=
  valOfBits ((ca.Bits.drop (i * ca.BitsPerKey)).take ca.BitsPerKey)

/-- From the source: `TCompressedArray::GetBitsPerKey`. -/
def TCompressedArray.GetBitsPerKey (ca : TCompressedArray) : Nat :=
  ca.BitsPerKey

/-- From the source: `TCompressedArray::GetRawPtr`. -/
def TCompressedArray.GetRawPtr (ca : TCompressedArray) : Nat :=
  ca.RawPtr

/-- Modelled from the spec: `TCompressedArray::CheckIfCanBeInterpretedAsRawArray<T>`
(from `compression.h`): a fatal precondition check that the bit width `w` of
the requested type `T` equals the declared bits-per-key. -/
def TCompressedArray.CheckIfCanBeInterpretedAsRawArray (ca : TCompressedArray)
    (w : Nat) : Except String Unit :=
  if w = ca.BitsPerKey then .ok () else .error "compressed array cannot be interpreted as raw array"

/-- From the source: the abstract base `IFeatureValuesHolder` state
(`Type`, `FeatureId`, `Size`); `Type` is spelled `FeatureType` here. -/
structure IFeatureValuesHolder where
  FeatureType : EFeatureValuesType
  FeatureId : Nat
  Size : Nat
  deriving DecidableEq, Repr

/-- From the source: `IFeatureValuesHolder::GetType`. -/
def IFeatureValuesHolder.GetType (h : IFeatureValuesHolder) : EFeatureValuesType :=
  h.FeatureType

/-- From the source: `IFeatureValuesHolder::GetSize`. -/
def IFeatureValuesHolder.GetSize (h : IFeatureValuesHolder) : Nat :=
  h.Size

/-- From the source: `IFeatureValuesHolder::GetId`. -/
def IFeatureValuesHolder.GetId (h : IFeatureValuesHolder) : Nat :=
  h.FeatureId

/-- Modelled from the spec: a subset view `TArraySubset` composing a source
array with a subset indexing; element access goes through the
logical-to-physical mapping (`values()[i] == A[P[i]]`). -/
structure TArraySubset (T : Type) where
  Src : List T
  SubsetIndexing : TArraySubsetIndexing

/-- Modelled from the spec: logical size of the subset view. -/
def TArraySubset.size {T : Type} (s : TArraySubset T) : Nat :=
  s.SubsetIndexing.Size

/-- Modelled from the spec: element access of the subset view; out of the
logical range, or mapped beyond the physical array, there is no value. -/
def TArraySubset.get? {T : Type} (s : TArraySubset T) (i : Nat) : Option T :=
  if i < s.SubsetIndexing.Size then s.Src.get? (s.SubsetIndexing.PositionOf i) else none

/-- From the source: `TArrayValuesHolder<T, TType>` state: the base part,
the owned source array and the borrowed subset indexing. -/
structure TArrayValuesHolder (T : Type) where
  Base : IFeatureValuesHolder
  SrcData : List T
  SubsetIndexing : TArraySubsetIndexing

/-- From the source: the `TArrayValuesHolder` constructor.  The member
initializer list evaluates `subsetIndexing->Size()` first: a null pointer is
dereferenced there, before the `CB_ENSURE(SubsetIndexing, ...)` in the
body runs; either way a null argument never yields a constructed holder.
`CB_ENSURE` tests the pointer itself, not the view's logical length. -/
def TArrayValuesHolder.construct {T : Type} (TType : EFeatureValuesType)
    (featureId : Nat) (srcData : List T)
    (subsetIndexing : Option TArraySubsetIndexing) :
    Except String (TArrayValuesHolder T) :=
  match subsetIndexing with
  | none => .error "null pointer dereference: subsetIndexing->Size()"
  | some si =>
    -- CB_ENSURE(SubsetIndexing, "subsetIndexing is empty"): pointer is non-null here
    .ok { Base := { FeatureType := TType, FeatureId := featureId, Size := si.Size }
          SrcData := srcData
          SubsetIndexing := si }

/-- From the source: `TArrayValuesHolder::GetArrayData` returns
`{&SrcData, SubsetIndexing}`. -/
def TArrayValuesHolder.GetArrayData {T : Type} (h : TArrayValuesHolder T) :
    TArraySubset T :=
  { Src := h.SrcData, SubsetIndexing := h.SubsetIndexing }

/-- From the source: `GetSize` of an array values holder (inherited). -/
def TArrayValuesHolder.GetSize {T : Type} (h : TArrayValuesHolder T) : Nat :=
  h.Base.GetSize

/-- From the source: `TCompressedValuesHolderImpl<TBase>` state: base part,
owned `SrcData`, the cached `SrcDataRawPtr` and the borrowed subset
indexing.  The base interface (`IQuantizedFloatValuesHolder` with value
type `ui8`, or `IQuantizedCatValuesHolder` with value type `ui32`) is
represented by its value type's bit width `ValueTypeWidth` together with
the `FeatureType` stored in the base part. -/
structure TCompressedValuesHolderImpl where
  Base : IFeatureValuesHolder
  ValueTypeWidth : Nat
  SrcData : TCompressedArray
  SrcDataRawPtr : Nat
  SubsetIndexing : TArraySubsetIndexing

/-- From the source: the `TCompressedValuesHolderImpl` constructor.  As in
`TArrayValuesHolder`, the initializer list evaluates `subsetIndexing->Size()`
before `CB_ENSURE(SubsetIndexing, ...)` runs, so a null argument never
yields a constructed holder; `SrcDataRawPtr` is initialized to
`SrcData.GetRawPtr()` after `SrcData` is moved in. -/
def TCompressedValuesHolderImpl.construct (ftype : EFeatureValuesType)
    (valueTypeWidth : Nat) (featureId : Nat) (srcData : TCompressedArray)
    (subsetIndexing : Option TArraySubsetIndexing) :
    Except String TCompressedValuesHolderImpl :=
  match subsetIndexing with
  | none => .error "null pointer dereference: subsetIndexing->Size()"
  | some si =>
    -- CB_ENSURE(SubsetIndexing, "subsetIndexing is empty"): pointer is non-null here
    .ok { Base := { FeatureType := ftype, FeatureId := featureId, Size := si.Size }
          ValueTypeWidth := valueTypeWidth
          SrcData := srcData
          SrcDataRawPtr := srcData.GetRawPtr
          SubsetIndexing := si }

/-- From the source: `GetSize` of a compressed values holder (inherited). -/
def TCompressedValuesHolderImpl.GetSize (h : TCompressedValuesHolderImpl) : Nat :=
  h.Base.GetSize

/-- From the source: `TCompressedValuesHolderImpl::GetBitsPerKey` forwards
to `SrcData.GetBitsPerKey()`. -/
def TCompressedValuesHolderImpl.GetBitsPerKey (h : TCompressedValuesHolderImpl) : Nat :=
  h.SrcData.GetBitsPerKey

/-- Modelled from the spec: `TConstCompressedArraySubset =
TArraySubset<const TCompressedArray, ui32>`: a subset view over the keys
of a still-packed compressed array. -/
structure TCompressedArraySubset where
  Src : TCompressedArray
  SubsetIndexing : TArraySubsetIndexing

/-- From the source: `TCompressedValuesHolderImpl::GetCompressedData`
returns `{&SrcData, SubsetIndexing}`. -/
def TCompressedValuesHolderImpl.GetCompressedData (h : TCompressedValuesHolderImpl) :
    TCompressedArraySubset :=
  { Src := h.SrcData, SubsetIndexing := h.SubsetIndexing }

/-- From the source: `TCompressedValuesHolderImpl::GetArrayData<T>`: first
`SrcData.CheckIfCanBeInterpretedAsRawArray<T>()` (fatal on width mismatch),
then a subset view built over the cached `SrcDataRawPtr` is returned —
no element is read or copied. -/
def TCompressedValuesHolderImpl.GetArrayData (h : TCompressedValuesHolderImpl)
    (w : Nat) : Except String (Nat × TArraySubsetIndexing) :=
  match h.SrcData.CheckIfCanBeInterpretedAsRawArray w with
  | .error e => .error e
  | .ok _ => .ok (h.SrcDataRawPtr, h.SubsetIndexing)

/-- From the source: the move constructor is the compiler-generated
field-wise move (`IFeatureValuesHolder(IFeatureValuesHolder&&) = default`
and the implicit move of `TCompressedValuesHolderImpl`): every field is
transferred; moving the owned `TCompressedArray` transfers its heap buffer,
so its contents and raw pointer are unchanged. -/
def TCompressedValuesHolderImpl.moveFrom (h : TCompressedValuesHolderImpl) :
    TCompressedValuesHolderImpl :=
  { Base := h.Base
    ValueTypeWidth := h.ValueTypeWidth
    SrcData := { BitsPerKey := h.SrcData.BitsPerKey
                 Bits := h.SrcData.Bits
                 RawPtr := h.SrcData.RawPtr }
    SrcDataRawPtr := h.SrcDataRawPtr
    SubsetIndexing := h.SubsetIndexing }

/-- Modelled from the spec: one block of `ParallelExtractValues`: decode
the logical indices `[start, start + len)` through the subset view, each
decoded key truncated to the target type's width `w`; every value lands at
its final index position. -/
def extractBlock (w : Nat) (ca : TCompressedArray) (si : TArraySubsetIndexing)
    (start len : Nat) : List Nat :=
  (List.range len).map (fun j => ca.decodeAt (si.PositionOf (start + j)) % 2 ^ w)

/-- Modelled from the spec: assembling the blocks chosen by the executor in
index order: block boundaries are consecutive, writes land at final index
positions, so the result is the concatenation of the per-block decodes. -/
def extractBlocksFrom (w : Nat) (ca : TCompressedArray) (si : TArraySubsetIndexing) :
    Nat → List Nat → List Nat
  | _, [] => []
  | start, len :: rest =>
      extractBlock w ca si start len ++ extractBlocksFrom w ca si (start + len) rest

/-- Modelled from the spec: `ParallelExtractValues<T>` (from
`catboost/libs/helpers/compression.h`, not under the shown sources): the
executor partitions the logical range `[0, size)` into independent
consecutive blocks of lengths `blockLens`; each block is decoded without
cross-block communication and each decoded value lands at its final index
position.  `w` is the bit width of the target integer type `T`. -/
def ParallelExtractValues (w : Nat) (subset : TCompressedArraySubset)
    (blockLens : List Nat) : List Nat :=
  extractBlocksFrom w subset.Src subset.SubsetIndexing 0 blockLens

/-- From the source: `TCompressedValuesHolderImpl::ExtractValuesT<T>`
returns `ParallelExtractValues<T>(GetCompressedData(), localExecutor)`;
the executor's choice of partition is the block-length list. -/
def TCompressedValuesHolderImpl.ExtractValuesT (h : TCompressedValuesHolderImpl)
    (w : Nat) (blockLens : List Nat) : List Nat :=
  ParallelExtractValues w h.GetCompressedData blockLens

/-- From the source: `TCompressedValuesHolderImpl::ExtractValues` calls
`ExtractValuesT<typename TBase::TValueType>`. -/
def TCompressedValuesHolderImpl.ExtractValues (h : TCompressedValuesHolderImpl)
    (blockLens : List Nat) : List Nat :=
  h.ExtractValuesT h.ValueTypeWidth blockLens

/-! ### Concrete sample inputs used to exercise the definitions -/

/-- An identity subset view of logical length `n`. -/
def subsetId (n : Nat) : TArraySubsetIndexing :=
  { Size := n, PositionOf := fun i => i }

/-- A reversing (permutation) subset view of logical length 3. -/
def subsetRev3 : TArraySubsetIndexing :=
  { Size := 3, PositionOf := fun i => 2 - i }

/-- A subset view of logical length 1 whose physical position 7 is out of
bounds for short source arrays. -/
def subsetOob : TArraySubsetIndexing :=
  { Size := 1, PositionOf := fun _ => 7 }

/-- The compressed array of the spec scenario: `[1, 2, 3, 0]` packed at 2
bits per key (buffer identity 42). -/
def sampleCompressedArray : TCompressedArray :=
  TCompressedArray.pack 2 [1, 2, 3, 0] 42

/-- The compressed values holder over `sampleCompressedArray` with an
identity subset view of length 4, as built by
`TCompressedValuesHolderImpl.construct .QuantizedFloat 8 0 sampleCompressedArray (some (subsetId 4))`. -/
def sampleCompressedHolder : TCompressedValuesHolderImpl :=
  { Base := { FeatureType := .QuantizedFloat, FeatureId := 0, Size := 4 }
    ValueTypeWidth := 8
    SrcData := sampleCompressedArray
    SrcDataRawPtr := 42
    SubsetIndexing := subsetId 4 }

/-- The raw values holder over `[10, 20, 30]` with the reversing subset
view, as built by `TArrayValuesHolder.construct .Float 0 [10, 20, 30] (some subsetRev3)`. -/
def sampleRawHolder : TArrayValuesHolder Nat :=
  { Base := { FeatureType := .Float, FeatureId := 0, Size := 3 }
    SrcData := [10, 20, 30]
    SubsetIndexing := subsetRev3 }

/-! ### Helper lemmas about the bit-level packing model -/

theorem length_bitsOf (b v : Nat) : (packBits.bitsOf b v).length = b := by
  induction b generalizing v with
  | zero => rfl
  | succ n ih => simp [packBits.bitsOf, ih]

theorem valOfBits_bitsOf (b v : Nat) (h : v < 2 ^ b) :
    valOfBits (packBits.bitsOf b v) = v := by
  induction b generalizing v with
  | zero =>
    interval_cases v
    rfl
  | succ n ih =>
    have hv2 : v / 2 < 2 ^ n := Nat.div_lt_of_lt_mul (by simpa [Nat.pow_succ, Nat.mul_comm] using h)
    have hmod : v % 2 = 0 ∨ v % 2 = 1 := Nat.mod_two_eq_zero_or_one v
    have hdm := Nat.div_add_mod v 2
    simp only [packBits.bitsOf, valOfBits, ih (v / 2) hv2]
    rcases hmod with h0 | h1
    · simp [h0]
      omega
    · simp [h1]
      omega

theorem packBits_cons (b v : Nat) (vs : List Nat) :
    packBits b (v :: vs) = packBits.bitsOf b v ++ packBits b vs := rfl

theorem drop_packBits_cons (b v : Nat) (vs : List Nat) :
    (packBits b (v :: vs)).drop b = packBits b vs := by
  rw [packBits_cons]
  exact List.drop_left' (length_bitsOf b v)

theorem take_packBits_cons (b v : Nat) (vs : List Nat) :
    (packBits b (v :: vs)).take b = packBits.bitsOf b v := by
  rw [packBits_cons]
  exact List.take_left' (length_bitsOf b v)

theorem decodeAt_pack (b : Nat) (vals : List Nat) (ptr i : Nat)
    (hi : i < vals.length) (hv : ∀ v ∈ vals, v < 2 ^ b) :
    (TCompressedArray.pack b vals ptr).decodeAt i = vals.getD i 0 := by
  unfold TCompressedArray.decodeAt TCompressedArray.pack
  simp only
  induction vals generalizing i with
  | nil => simp at hi
  | cons v vs ih =>
    cases i with
    | zero =>
      rw [Nat.zero_mul, List.drop_zero, take_packBits_cons]
      exact valOfBits_bitsOf b v (hv v (by simp))
    | succ n =>
      have hstep : (n + 1) * b = b + n * b := by ring
      rw [hstep, ← List.drop_drop, drop_packBits_cons]
      exact ih n (by simpa using hi) (fun x hx => hv x (by simp [hx]))

/-! ### Helper lemmas about block-partitioned extraction -/

theorem extractBlocksFrom_eq_map (w : Nat) (ca : TCompressedArray)
    (si : TArraySubsetIndexing) (start : Nat) (lens : List Nat) :
    extractBlocksFrom w ca si start lens =
      (List.range lens.sum).map
        (fun j => ca.decodeAt (si.PositionOf (start + j)) % 2 ^ w) := by
  induction lens generalizing start with
  | nil => simp [extractBlocksFrom]
  | cons len rest ih =>
    simp only [extractBlocksFrom, extractBlock, List.sum_cons, List.range_add,
      List.map_append, List.map_map, ih]
    congr 1
    simp [Function.comp_def, Nat.add_assoc]

theorem ParallelExtractValues_eq_map (w : Nat) (subset : TCompressedArraySubset)
    (blockLens : List Nat) (hsum : blockLens.sum = subset.SubsetIndexing.Size) :
    ParallelExtractValues w subset blockLens =
      (List.range subset.SubsetIndexing.Size).map
        (fun j => subset.Src.decodeAt (subset.SubsetIndexing.PositionOf j) % 2 ^ w) := by
  rw [ParallelExtractValues, extractBlocksFrom_eq_map, hsum]
  simp

theorem map_getD_range (l : List Nat) :
    (List.range l.length).map (fun j => l.getD j 0) = l := by
  induction l with
  | nil => rfl
  | cons v vs ih =>
    rw [List.length_cons, List.range_succ_eq_map, List.map_cons, List.map_map]
    simp only [List.getD_cons_zero, List.cons.injEq, true_and]
    simpa [Function.comp_def] using ih

/-! ### Claim theorems -/

/-- C1: for every Raw Value Column constructed from a source array `A` and
a subset view of logical length `N`, the view returned by `GetArrayData`
satisfies `values()[i] == A[P[i]]` for all `i` in `[0, N)`, where `P` is
the view's logical-to-physical mapping; in particular, with an identity
subset view, `values()[i] == A[i]`. -/
theorem C1_raw_values_follow_subset_mapping {T : Type}
    (tt : EFeatureValuesType) (featureId : Nat) (A : List T)
    (si : TArraySubsetIndexing) (hld : TArrayValuesHolder T)
    (hc : TArrayValuesHolder.construct tt featureId A (some si) = .ok hld) :
    (∀ i, i < si.Size → hld.GetArrayData.get? i = A.get? (si.PositionOf i)) ∧
    ((∀ j, si.PositionOf j = j) →
      ∀ i, i < si.Size → hld.GetArrayData.get? i = A.get? i) := by
  simp only [TArrayValuesHolder.construct, Except.ok.injEq] at hc
  subst hc
  constructor
  · intro i hi
    simp [TArrayValuesHolder.GetArrayData, TArraySubset.get?, hi]
  · intro hid i hi
    simp [TArrayValuesHolder.GetArrayData, TArraySubset.get?, hi, hid i]

/-- C1 witness: at `A = [10, 20, 30]` with the reversing subset view,
`values()[0] = A[P[0]] = A[2] = 30`. -/
theorem C1_raw_values_follow_subset_mapping_witness :
    TArrayValuesHolder.construct EFeatureValuesType.Float 0 [10, 20, 30]
        (some subsetRev3) = .ok sampleRawHolder ∧
    sampleRawHolder.GetArrayData.get? 0 = some 30 := by
  refine ⟨rfl, ?_⟩
  have h := (C1_raw_values_follow_subset_mapping EFeatureValuesType.Float 0
    [10, 20, 30] subsetRev3 sampleRawHolder rfl).1 0 (by decide)
  simpa [subsetRev3] using h

/-- C5: constructing any column (Raw Value Column or Compressed Value
Column) with a null/absent subset view never yields a constructed column:
construction fails immediately (the member initializer list dereferences
the null pointer before `CB_ENSURE` even runs), so no accessor is ever
callable. -/
theorem C5_null_subset_view_fails_fast {T : Type}
    (tt : EFeatureValuesType) (featureId : Nat) (A : List T)
    (ftype : EFeatureValuesType) (vtw featureId2 : Nat) (ca : TCompressedArray) :
    TArrayValuesHolder.construct tt featureId A none =
      .error "null pointer dereference: subsetIndexing->Size()" ∧
    TCompressedValuesHolderImpl.construct ftype vtw featureId2 ca none =
      .error "null pointer dereference: subsetIndexing->Size()" :=
  ⟨rfl, rfl⟩

/-- C6 counterexample: constructing a Raw Value Column with a present
subset view of logical length zero is NOT rejected: it succeeds and yields
a usable column whose size is 0 (the `CB_ENSURE` only tests the pointer
for null, not the view's length). -/
theorem C6_counterexample_zero_size_accepted :
    (TArrayValuesHolder.construct EFeatureValuesType.Float 5 ([] : List Nat)
        (some (subsetId 0))).map TArrayValuesHolder.GetSize = .ok 0 ∧
    (TCompressedValuesHolderImpl.construct EFeatureValuesType.QuantizedFloat 8 5
        sampleCompressedArray (some (subsetId 0))).map
        TCompressedValuesHolderImpl.GetSize = .ok 0 :=
  ⟨rfl, rfl⟩

/-- C6 amended: construction does not require a non-empty size; any
present (non-null) subset view is accepted, including one of logical
length zero, and yields a usable column whose stored size is the view's
logical length. -/
theorem C6_any_present_subset_view_accepted {T : Type}
    (tt : EFeatureValuesType) (featureId : Nat) (A : List T)
    (si : TArraySubsetIndexing)
    (ftype : EFeatureValuesType) (vtw featureId2 : Nat) (ca : TCompressedArray)
    (si2 : TArraySubsetIndexing) :
    (TArrayValuesHolder.construct tt featureId A (some si)).map
      TArrayValuesHolder.GetSize = .ok si.Size ∧
    (TCompressedValuesHolderImpl.construct ftype vtw featureId2 ca (some si2)).map
      TCompressedValuesHolderImpl.GetSize = .ok si2.Size :=
  ⟨rfl, rfl⟩

/-- C7: for every constructed column, the stored size equals the logical
length of the bound subset view at construction time (not the physical
array length, over which the statement does not quantify); `GetSize`
returns this value, and it is unchanged by move transfer. -/
theorem C7_size_is_subset_view_length {T : Type}
    (tt : EFeatureValuesType) (featureId : Nat) (A : List T)
    (si : TArraySubsetIndexing) (hld : TArrayValuesHolder T)
    (ftype : EFeatureValuesType) (vtw featureId2 : Nat) (ca : TCompressedArray)
    (si2 : TArraySubsetIndexing) (hld2 : TCompressedValuesHolderImpl)
    (hc : TArrayValuesHolder.construct tt featureId A (some si) = .ok hld)
    (hc2 : TCompressedValuesHolderImpl.construct ftype vtw featureId2 ca
      (some si2) = .ok hld2) :
    hld.GetSize = si.Size ∧ hld2.GetSize = si2.Size ∧
    hld2.moveFrom.GetSize = si2.Size := by
  simp only [TArrayValuesHolder.construct, Except.ok.injEq] at hc
  simp only [TCompressedValuesHolderImpl.construct, Except.ok.injEq] at hc2
  subst hc; subst hc2
  refine ⟨rfl, rfl, rfl⟩

/-- C7 witness: concrete columns built from views of lengths 3 and 4 have
sizes 3 and 4, also after move transfer. -/
theorem C7_size_is_subset_view_length_witness :
    sampleRawHolder.GetSize = 3 ∧ sampleCompressedHolder.GetSize = 4 ∧
    sampleCompressedHolder.moveFrom.GetSize = 4 := by
  have h := C7_size_is_subset_view_length EFeatureValuesType.Float 0
    ([10, 20, 30] : List Nat) subsetRev3 sampleRawHolder
    EFeatureValuesType.QuantizedFloat 8 0 sampleCompressedArray (subsetId 4)
    sampleCompressedHolder rfl rfl
  exact ⟨h.1, h.2.1, h.2.2⟩

/-- C10: Raw Value Column construction performs no bounds validation of the
subset view's physical positions: with source array `[5]` and a view
mapping logical index 0 to physical position 7, construction succeeds
(the column is usable, `GetSize = 1`), and the out-of-bounds access only
surfaces later, when the returned view is indexed (no value there). -/
theorem C10_no_bounds_validation_at_construction :
    (TArrayValuesHolder.construct EFeatureValuesType.Float 0 [5]
        (some subsetOob)).map TArrayValuesHolder.GetSize = .ok 1 ∧
    (TArrayValuesHolder.construct EFeatureValuesType.Float 0 [5]
        (some subsetOob)).map (fun h => h.GetArrayData.get? 0) = .ok none :=
  ⟨rfl, rfl⟩

/-- C4: for every Compressed Value Column with bits-per-key `b` and every
target integer width `w`, raw-pointer reinterpretation (`GetArrayData<T>`)
fails (no pointer is ever produced, no memory read) when `w ≠ b`, and when
`w = b` it succeeds, returning the cached raw pointer and the subset view
without copying any element. -/
theorem C4_raw_reinterpretation_width_checked
    (hld : TCompressedValuesHolderImpl) (w : Nat) :
    (w ≠ hld.GetBitsPerKey → (hld.GetArrayData w).isOk = false) ∧
    (w = hld.GetBitsPerKey →
      hld.GetArrayData w = .ok (hld.SrcDataRawPtr, hld.SubsetIndexing)) := by
  constructor
  · intro hne
    simp [TCompressedValuesHolderImpl.GetArrayData,
      TCompressedArray.CheckIfCanBeInterpretedAsRawArray,
      TCompressedValuesHolderImpl.GetBitsPerKey, TCompressedArray.GetBitsPerKey,
      Except.isOk, Except.toBool] at hne ⊢
    simp [hne]
  · intro heq
    simp [TCompressedValuesHolderImpl.GetArrayData,
      TCompressedArray.CheckIfCanBeInterpretedAsRawArray,
      TCompressedValuesHolderImpl.GetBitsPerKey, TCompressedArray.GetBitsPerKey] at heq ⊢
    simp [heq]

/-- C4 witness: on the 2-bits-per-key sample column, width 8 is rejected
and width 2 yields the cached raw pointer 42. -/
theorem C4_raw_reinterpretation_width_checked_witness :
    (8 ≠ sampleCompressedHolder.GetBitsPerKey ∧
      (sampleCompressedHolder.GetArrayData 8).isOk = false) ∧
    (2 = sampleCompressedHolder.GetBitsPerKey ∧
      sampleCompressedHolder.GetArrayData 2 =
        .ok (sampleCompressedHolder.SrcDataRawPtr,
             sampleCompressedHolder.SubsetIndexing)) :=
  ⟨⟨by decide,
    (C4_raw_reinterpretation_width_checked sampleCompressedHolder 8).1 (by decide)⟩,
   ⟨by decide,
    (C4_raw_reinterpretation_width_checked sampleCompressedHolder 2).2 (by decide)⟩⟩

/-- C9: in every constructed Compressed Value Column, the cached raw
pointer equals the raw pointer of the owned compressed array; this
invariant is preserved by move transfer, and raw-pointer reinterpretation
(at the matching width) returns exactly the cached pointer. -/
theorem C9_cached_raw_pointer_invariant
    (ftype : EFeatureValuesType) (vtw featureId : Nat) (ca : TCompressedArray)
    (si : TArraySubsetIndexing) (hld : TCompressedValuesHolderImpl)
    (hc : TCompressedValuesHolderImpl.construct ftype vtw featureId ca
      (some si) = .ok hld) :
    hld.SrcDataRawPtr = hld.SrcData.GetRawPtr ∧
    hld.moveFrom.SrcDataRawPtr = hld.moveFrom.SrcData.GetRawPtr ∧
    hld.moveFrom.SrcDataRawPtr = hld.SrcDataRawPtr ∧
    hld.GetArrayData hld.GetBitsPerKey =
      .ok (hld.SrcDataRawPtr, hld.SubsetIndexing) := by
  simp only [TCompressedValuesHolderImpl.construct, Except.ok.injEq] at hc
  subst hc
  refine ⟨rfl, rfl, rfl, ?_⟩
  simp [TCompressedValuesHolderImpl.GetArrayData,
    TCompressedArray.CheckIfCanBeInterpretedAsRawArray,
    TCompressedValuesHolderImpl.GetBitsPerKey, TCompressedArray.GetBitsPerKey]

/-- C9 witness: the invariant instantiated on the sample compressed
column (cached pointer 42). -/
theorem C9_cached_raw_pointer_invariant_witness :
    sampleCompressedHolder.SrcDataRawPtr = sampleCompressedHolder.SrcData.GetRawPtr ∧
    sampleCompressedHolder.GetArrayData sampleCompressedHolder.GetBitsPerKey =
      .ok (sampleCompressedHolder.SrcDataRawPtr,
           sampleCompressedHolder.SubsetIndexing) := by
  have h := C9_cached_raw_pointer_invariant EFeatureValuesType.QuantizedFloat 8 0
    sampleCompressedArray (subsetId 4) sampleCompressedHolder rfl
  exact ⟨h.1, h.2.2.2⟩

/-- C2: for every Compressed Value Column built over values packed at
bits-per-key `b`, full extraction (`ExtractValuesT` at any target width
`w ≥ b`, under any executor partition of the logical range) returns an
array whose length equals `size()` and whose decoded entries equal the
originally packed values, read through the subset view. -/
theorem C2_extraction_decodes_packed_values
    (ftype : EFeatureValuesType) (vtw featureId b w ptr : Nat)
    (vals : List Nat) (si : TArraySubsetIndexing) (blockLens : List Nat)
    (hld : TCompressedValuesHolderImpl)
    (hc : TCompressedValuesHolderImpl.construct ftype vtw featureId
      (TCompressedArray.pack b vals ptr) (some si) = .ok hld)
    (hv : ∀ v ∈ vals, v < 2 ^ b)
    (hw : b ≤ w)
    (hP : ∀ i, i < si.Size → si.PositionOf i < vals.length)
    (hsum : blockLens.sum = si.Size) :
    (hld.ExtractValuesT w blockLens).length = hld.GetSize ∧
    ∀ i, i < si.Size →
      (hld.ExtractValuesT w blockLens).get? i =
        some (vals.getD (si.PositionOf i) 0) := by
  simp only [TCompressedValuesHolderImpl.construct, Except.ok.injEq] at hc
  subst hc
  have hext : ∀ j, j < si.Size →
      (TCompressedArray.pack b vals ptr).decodeAt (si.PositionOf j) % 2 ^ w =
        vals.getD (si.PositionOf j) 0 := by
    intro j hj
    rw [decodeAt_pack b vals ptr _ (hP j hj) hv]
    have hlt : vals.getD (si.PositionOf j) 0 < 2 ^ b := by
      rw [List.getD_eq_getElem vals 0 (hP j hj)]
      exact hv _ (List.getElem_mem _)
    exact Nat.mod_eq_of_lt (lt_of_lt_of_le hlt (Nat.pow_le_pow_right (by norm_num) hw))
  rw [TCompressedValuesHolderImpl.ExtractValuesT,
    ParallelExtractValues_eq_map w _ blockLens hsum]
  constructor
  · simp [TCompressedValuesHolderImpl.GetCompressedData,
      TCompressedValuesHolderImpl.GetSize, IFeatureValuesHolder.GetSize]
  · intro i hi
    rw [List.get?_eq_getElem?, List.getElem?_map, List.getElem?_range (by exact hi)]
    exact congrArg some (hext i hi)

/-- C2 witness: `[1, 2, 3, 0]` packed at 2 bits per key, extracted at
width 8 with executor partition `[2, 2]`: length 4 and entry 2 decodes
to 3. -/
theorem C2_extraction_decodes_packed_values_witness :
    ((sampleCompressedHolder.ExtractValuesT 8 [2, 2]).length =
        sampleCompressedHolder.GetSize) ∧
    (sampleCompressedHolder.ExtractValuesT 8 [2, 2]).get? 2 = some 3 := by
  have h := C2_extraction_decodes_packed_values EFeatureValuesType.QuantizedFloat
    8 0 2 8 42 [1, 2, 3, 0] (subsetId 4) [2, 2] sampleCompressedHolder rfl
    (by decide) (by decide) (by decide) (by decide)
  exact ⟨h.1, by simpa [subsetId] using h.2 2 (by decide)⟩

/-- C3: round-trip: for every sequence of values fitting in `b` bits, with
`b` among the supported widths `{1, 2, 4, 8, 16, 32, 64}`, packing at `b`
bits per key, wrapping in a Compressed Value Column with an identity
subset view and fully extracting (at any target width `w ≥ b`, under any
executor partition) reproduces the original sequence exactly. -/
theorem C3_pack_extract_roundtrip
    (ftype : EFeatureValuesType) (vtw featureId b w ptr : Nat)
    (vals : List Nat) (blockLens : List Nat)
    (hld : TCompressedValuesHolderImpl)
    (_hb : b ∈ [1, 2, 4, 8, 16, 32, 64])
    (hv : ∀ v ∈ vals, v < 2 ^ b)
    (hw : b ≤ w)
    (hsum : blockLens.sum = vals.length)
    (hc : TCompressedValuesHolderImpl.construct ftype vtw featureId
      (TCompressedArray.pack b vals ptr) (some (subsetId vals.length)) = .ok hld) :
    hld.ExtractValuesT w blockLens = vals := by
  simp only [TCompressedValuesHolderImpl.construct, Except.ok.injEq] at hc
  subst hc
  rw [TCompressedValuesHolderImpl.ExtractValuesT,
    ParallelExtractValues_eq_map w _ blockLens (by simpa [subsetId] using hsum)]
  simp only [TCompressedValuesHolderImpl.GetCompressedData, subsetId]
  rw [List.map_congr_left (fun j hj => ?_), map_getD_range vals]
  have hjlen : j < vals.length := List.mem_range.mp hj
  rw [decodeAt_pack b vals ptr j hjlen hv]
  have hlt : vals.getD j 0 < 2 ^ b := by
    rw [List.getD_eq_getElem vals 0 hjlen]
    exact hv _ (List.getElem_mem _)
  exact Nat.mod_eq_of_lt (lt_of_lt_of_le hlt (Nat.pow_le_pow_right (by norm_num) hw))

/-- C3 witness: the spec scenario: `[1, 2, 3, 0]` packed at 2 bits per key
extracts at width 8 as `[1, 2, 3, 0]`. -/
theorem C3_pack_extract_roundtrip_witness :
    sampleCompressedHolder.ExtractValuesT 8 [4] = [1, 2, 3, 0] :=
  C3_pack_extract_roundtrip EFeatureValuesType.QuantizedFloat 8 0 2 8 42
    [1, 2, 3, 0] [4] sampleCompressedHolder (by decide) (by decide) (by decide)
    (by decide) rfl

/-- C8: full extraction partitioned into any list of blocks produces
output identical (in order and values) to single-block, sequential
extraction: the result depends only on the packed data and the subset
view, with each decoded value landing at its final index. -/
theorem C8_parallel_extraction_deterministic
    (hld : TCompressedValuesHolderImpl) (w : Nat) (blockLens : List Nat)
    (hsum : blockLens.sum = hld.SubsetIndexing.Size) :
    hld.ExtractValuesT w blockLens =
      hld.ExtractValuesT w [hld.SubsetIndexing.Size] ∧
    hld.ExtractValues blockLens =
      hld.ExtractValues [hld.SubsetIndexing.Size] := by
  constructor
  · rw [TCompressedValuesHolderImpl.ExtractValuesT,
      TCompressedValuesHolderImpl.ExtractValuesT,
      ParallelExtractValues_eq_map w _ blockLens hsum,
      ParallelExtractValues_eq_map w _ [hld.SubsetIndexing.Size]
        (by simp [TCompressedValuesHolderImpl.GetCompressedData])]
  · rw [TCompressedValuesHolderImpl.ExtractValues,
      TCompressedValuesHolderImpl.ExtractValues,
      TCompressedValuesHolderImpl.ExtractValuesT,
      TCompressedValuesHolderImpl.ExtractValuesT,
      ParallelExtractValues_eq_map _ _ blockLens hsum,
      ParallelExtractValues_eq_map _ _ [hld.SubsetIndexing.Size]
        (by simp [TCompressedValuesHolderImpl.GetCompressedData])]

/-- C8 witness: on the sample column (view length 4), the partitions
`[1, 3]` and `[4]` produce the same extraction. -/
theorem C8_parallel_extraction_deterministic_witness :
    (1 + 3 + 0 = sampleCompressedHolder.SubsetIndexing.Size) ∧
    sampleCompressedHolder.ExtractValuesT 8 [1, 3] =
      sampleCompressedHolder.ExtractValuesT 8
        [sampleCompressedHolder.SubsetIndexing.Size] :=
  ⟨by decide,
   (C8_parallel_extraction_deterministic sampleCompressedHolder 8 [1, 3]
     (by decide)).1⟩

end NCB
